import Mathlib

/-!
Shallow embedding of an editor-formatting plugin (src/main.ts).

Buffers are lists of characters.  `splitOnNl` models JavaScript
`code.split("\n")`, `lastIndexOfNl` models `substring.lastIndexOf("\n")`
(returning `-1` when no newline occurs), and `reduceIdx` models
`Array.prototype.reduce` where the reducer also receives the element index.
The format orchestration is modelled as a state transformer over an explicit
editor state together with a trace of the host-editor calls it performs; the
external formatting engine is a parameter.
-/

namespace PrettierFormat

/-- Cursor position as in the source: zero-based `line` and column `ch`. -/
structure CursorPosition where
  line : Nat
  ch : Nat
  deriving DecidableEq

/-- Model of JavaScript `code.split("\n")` on a character list: the list of
lines; an empty buffer yields one empty line, and every `'\n'` separates two
(possibly empty) lines. -/
def splitOnNl : List Char → List (List Char)
  | [] => [[]]
  | c :: cs =>
    if c = '\n' then
      [] :: splitOnNl cs
    else
      match splitOnNl cs with
      | [] => [[c]]
      | l :: ls => (c :: l) :: ls

/-- Model of `Array.prototype.reduce` with the element index: folds `f` over
the list, threading an accumulator and the running index. -/
def reduceIdx {α β : Type} (f : α → Nat → β → α) : α → Nat → List β → α
  | acc, _, [] => acc
  | acc, i, b :: bs => reduceIdx f (f acc i b) (i + 1) bs

/-- The reducer body of `positionToCursorOffset` in the source: for lines
before the target line accumulate `length + 1` (the removed newline), at the
target line add the column, and ignore later lines. -/
def offsetStep (line ch : Nat) (pos : Nat) (index : Nat) (currLine : List Char) : Nat :=
  if index < line then pos + currLine.length + 1
  else if index = line then pos + ch
  else pos

/-- `positionToCursorOffset` from the source: split the buffer on newlines and
reduce with `offsetStep`. -/
def positionToCursorOffset (code : List Char) (p : CursorPosition) : Nat :=
  reduceIdx (offsetStep p.line p.ch) 0 0 (splitOnNl code)

/-- Model of `substring.lastIndexOf("\n")`: the largest index of a newline in
the list, or `-1` when the list has no newline. -/
def lastIndexOfNl : List Char → Int
  | [] => -1
  | c :: cs =>
    if lastIndexOfNl cs = -1 then
      if c = '\n' then 0 else -1
    else
      lastIndexOfNl cs + 1

/-- `cursorOffsetToPosition` from the source: take the prefix of the buffer up
to the offset (JavaScript `slice(0, cursorOffset)` clamps at the length), the
line is the number of lines of the prefix minus one, and the column is the
offset minus the index of the last newline of the prefix minus one. -/
def cursorOffsetToPosition (code : List Char) (cursorOffset : Nat) : CursorPosition :=
  let substring := List.take cursorOffset code
  let line := (splitOnNl substring).length - 1
  let indexOfLastLine := lastIndexOfNl substring
  { line := line, ch := ((cursorOffset : Int) - indexOfLastLine - 1).toNat }

/-- Number of newline characters in a buffer. -/
def countNl : List Char → Nat
  | [] => 0
  | c :: cs => (if c = '\n' then 1 else 0) + countNl cs

theorem splitOnNl_nil : splitOnNl [] = [[]] := rfl

theorem splitOnNl_cons_nl (cs : List Char) :
    splitOnNl ('\n' :: cs) = [] :: splitOnNl cs := by
  simp [splitOnNl]

theorem splitOnNl_cons_ne {c : Char} (hc : c ≠ '\n') {cs l : List Char}
    {ls : List (List Char)} (h : splitOnNl cs = l :: ls) :
    splitOnNl (c :: cs) = (c :: l) :: ls := by
  simp [splitOnNl, hc, h]

theorem splitOnNl_exists_cons (s : List Char) :
    ∃ l ls, splitOnNl s = l :: ls := by
  induction s with
  | nil => exact ⟨[], [], rfl⟩
  | cons c cs ih =>
    obtain ⟨l, ls, h⟩ := ih
    by_cases hc : c = '\n'
    · subst hc
      exact ⟨[], splitOnNl cs, splitOnNl_cons_nl cs⟩
    · exact ⟨c :: l, ls, splitOnNl_cons_ne hc h⟩

theorem splitOnNl_length (s : List Char) :
    (splitOnNl s).length = countNl s + 1 := by
  induction s with
  | nil => rfl
  | cons c cs ih =>
    by_cases hc : c = '\n'
    · subst hc
      simp [splitOnNl_cons_nl, countNl, ih]
      omega
    · obtain ⟨l, ls, h⟩ := splitOnNl_exists_cons cs
      rw [splitOnNl_cons_ne hc h]
      simp only [List.length_cons, countNl, hc, if_neg hc]
      rw [h] at ih
      simp at ih
      simp [ih]

theorem countNl_eq_zero_iff {s : List Char} : countNl s = 0 ↔ '\n' ∉ s := by
  induction s with
  | nil => simp [countNl]
  | cons c cs ih =>
    by_cases hc : c = '\n'
    · subst hc
      simp [countNl]
    · simp [countNl, hc, ih, Ne.symm hc]

theorem lastIndexOfNl_ge (s : List Char) : -1 ≤ lastIndexOfNl s := by
  induction s with
  | nil => simp [lastIndexOfNl]
  | cons c cs ih =>
    by_cases hr : lastIndexOfNl cs = -1
    · by_cases hc : c = '\n' <;> simp [lastIndexOfNl, hr, hc]
    · simp only [lastIndexOfNl, if_neg hr]
      omega

theorem lastIndexOfNl_lt_length (s : List Char) :
    lastIndexOfNl s < (s.length : Int) := by
  induction s with
  | nil => simp [lastIndexOfNl]
  | cons c cs ih =>
    by_cases hr : lastIndexOfNl cs = -1
    · simp only [lastIndexOfNl, hr, if_true, List.length_cons]
      split <;> omega
    · simp only [lastIndexOfNl, if_neg hr, List.length_cons]
      push_cast
      omega

theorem lastIndexOfNl_eq_neg_one_iff {s : List Char} :
    lastIndexOfNl s = -1 ↔ '\n' ∉ s := by
  induction s with
  | nil => simp [lastIndexOfNl]
  | cons c cs ih =>
    by_cases hr : lastIndexOfNl cs = -1
    · by_cases hc : c = '\n'
      · subst hc
        simp [lastIndexOfNl, hr]
      · simp [lastIndexOfNl, hr, hc, ih.mp hr, Ne.symm hc]
    · have hge := lastIndexOfNl_ge cs
      have hmem : '\n' ∈ cs := by
        by_contra hn
        exact hr (ih.mpr hn)
      simp only [lastIndexOfNl, if_neg hr]
      constructor
      · intro h
        omega
      · intro h
        exact absurd (List.mem_cons_of_mem c hmem) h

theorem lastIndexOfNl_cons_nl (cs : List Char) :
    lastIndexOfNl ('\n' :: cs) = lastIndexOfNl cs + 1 := by
  by_cases hr : lastIndexOfNl cs = -1
  · simp [lastIndexOfNl, hr]
  · simp [lastIndexOfNl, hr]

theorem lastIndexOfNl_cons_ne {c : Char} (hc : c ≠ '\n') (cs : List Char) :
    lastIndexOfNl (c :: cs) =
      if lastIndexOfNl cs = -1 then -1 else lastIndexOfNl cs + 1 := by
  simp [lastIndexOfNl, hc]

/-- Unfolded form of `cursorOffsetToPosition`: the line is the newline count of
the prefix and the column is the offset minus the last-newline index minus
one. -/
theorem cursorOffsetToPosition_eq (code : List Char) (o : Nat) :
    cursorOffsetToPosition code o =
      ⟨countNl (code.take o),
       ((o : Int) - lastIndexOfNl (code.take o) - 1).toNat⟩ := by
  simp [cursorOffsetToPosition, splitOnNl_length]

theorem reduceIdx_const_of_lt {line ch : Nat} :
    ∀ (ls : List (List Char)) (acc i : Nat), line < i →
      reduceIdx (offsetStep line ch) acc i ls = acc := by
  intro ls
  induction ls with
  | nil => intro acc i _; rfl
  | cons b bs ih =>
    intro acc i hi
    have hstep : offsetStep line ch acc i b = acc := by
      simp only [offsetStep]
      rw [if_neg (by omega), if_neg (by omega)]
    simp only [reduceIdx, hstep]
    exact ih acc (i + 1) (by omega)

theorem reduceIdx_acc_add {line ch : Nat} :
    ∀ (ls : List (List Char)) (a acc i : Nat),
      reduceIdx (offsetStep line ch) (a + acc) i ls =
        a + reduceIdx (offsetStep line ch) acc i ls := by
  intro ls
  induction ls with
  | nil => intro a acc i; rfl
  | cons b bs ih =>
    intro a acc i
    have hstep : offsetStep line ch (a + acc) i b = a + offsetStep line ch acc i b := by
      simp only [offsetStep]
      split <;> try split
      all_goals omega
    simp only [reduceIdx, hstep]
    exact ih a (offsetStep line ch acc i b) (i + 1)

theorem reduceIdx_shift {line ch : Nat} :
    ∀ (ls : List (List Char)) (acc i : Nat),
      reduceIdx (offsetStep (line + 1) ch) acc (i + 1) ls =
        reduceIdx (offsetStep line ch) acc i ls := by
  intro ls
  induction ls with
  | nil => intro acc i; rfl
  | cons b bs ih =>
    intro acc i
    have hstep : offsetStep (line + 1) ch acc (i + 1) b = offsetStep line ch acc i b := by
      simp only [offsetStep]
      by_cases h1 : i < line
      · rw [if_pos (by omega), if_pos h1]
      · by_cases h2 : i = line
        · rw [if_neg (by omega), if_neg h1, if_pos (by omega), if_pos h2]
        · rw [if_neg (by omega), if_neg h1, if_neg (by omega), if_neg h2]
    rw [reduceIdx, hstep, ih, reduceIdx]

/-- At target line `0` the offset is exactly the column. -/
theorem positionToCursorOffset_line_zero (code : List Char) (ch : Nat) :
    positionToCursorOffset code ⟨0, ch⟩ = ch := by
  obtain ⟨l, ls, h⟩ := splitOnNl_exists_cons code
  simp only [positionToCursorOffset, h, reduceIdx]
  have hstep : offsetStep 0 ch 0 0 l = ch := by
    simp [offsetStep]
  rw [hstep]
  exact reduceIdx_const_of_lt ls ch 1 (by omega)

/-- Peeling a newline: the first (empty) line contributes `1` and the target
line index drops by one. -/
theorem positionToCursorOffset_cons_nl (cs : List Char) (line ch : Nat) :
    positionToCursorOffset ('\n' :: cs) ⟨line + 1, ch⟩ =
      1 + positionToCursorOffset cs ⟨line, ch⟩ := by
  simp only [positionToCursorOffset, splitOnNl_cons_nl, reduceIdx]
  have hstep : offsetStep (line + 1) ch 0 0 [] = 1 := by
    simp [offsetStep]
  rw [hstep]
  have h1 : (1 : Nat) = 1 + 0 := rfl
  rw [h1, reduceIdx_acc_add (splitOnNl cs) 1 0 1, reduceIdx_shift (splitOnNl cs) 0 0]

/-- Peeling a non-newline character with a positive target line: the character
lengthens the first line, so the offset grows by one. -/
theorem positionToCursorOffset_cons_ne {c : Char} (hc : c ≠ '\n')
    (cs : List Char) (line ch : Nat) :
    positionToCursorOffset (c :: cs) ⟨line + 1, ch⟩ =
      1 + positionToCursorOffset cs ⟨line + 1, ch⟩ := by
  obtain ⟨l, ls, h⟩ := splitOnNl_exists_cons cs
  simp only [positionToCursorOffset, splitOnNl_cons_ne hc h, h, reduceIdx]
  have hstep1 : offsetStep (line + 1) ch 0 0 (c :: l) = l.length + 1 + 1 := by
    simp [offsetStep]
  have hstep2 : offsetStep (line + 1) ch 0 0 l = l.length + 1 := by
    simp [offsetStep]
  rw [hstep1, hstep2]
  have h1 : l.length + 1 + 1 = 1 + (l.length + 1) := by omega
  rw [h1, reduceIdx_acc_add ls 1 (l.length + 1) 1]

/-- Claim C1: for every buffer and every offset `o` with `0 ≤ o ≤ length`,
converting the offset to a position and back is the identity:
`positionToCursorOffset b (cursorOffsetToPosition b o) = o`. -/
theorem offset_roundtrip (code : List Char) (o : Nat) (h : o ≤ code.length) :
    positionToCursorOffset code (cursorOffsetToPosition code o) = o := by
  induction code generalizing o with
  | nil =>
    have ho : o = 0 := by simpa using h
    subst ho
    rfl
  | cons c cs ih =>
    match o with
    | 0 =>
      have hpos : cursorOffsetToPosition (c :: cs) 0 = ⟨0, 0⟩ := rfl
      rw [hpos, positionToCursorOffset_line_zero]
    | o' + 1 =>
      have ho' : o' ≤ cs.length := by
        simpa using h
      have ihx := ih o' ho'
      rw [cursorOffsetToPosition_eq] at ihx ⊢
      have htake : (c :: cs).take (o' + 1) = c :: cs.take o' := rfl
      rw [htake]
      have hrge := lastIndexOfNl_ge (cs.take o')
      have hrlt := lastIndexOfNl_lt_length (cs.take o')
      by_cases hc : c = '\n'
      · subst hc
        have hcnt : countNl ('\n' :: cs.take o') = countNl (cs.take o') + 1 := by
          simp [countNl]
          omega
        have hidx : lastIndexOfNl ('\n' :: cs.take o') = lastIndexOfNl (cs.take o') + 1 :=
          lastIndexOfNl_cons_nl (cs.take o')
        rw [hcnt, hidx]
        have hch : ((o' + 1 : Nat) : Int) - (lastIndexOfNl (cs.take o') + 1) - 1 =
            (o' : Int) - lastIndexOfNl (cs.take o') - 1 := by
          push_cast
          ring
        rw [hch, positionToCursorOffset_cons_nl]
        omega
      · have hcnt : countNl (c :: cs.take o') = countNl (cs.take o') := by
          simp [countNl, hc]
        have hidx := lastIndexOfNl_cons_ne hc (cs.take o')
        by_cases hr : lastIndexOfNl (cs.take o') = -1
        · rw [hcnt, hidx, if_pos hr]
          have hcnt0 : countNl (cs.take o') = 0 :=
            countNl_eq_zero_iff.mpr (lastIndexOfNl_eq_neg_one_iff.mp hr)
          rw [hcnt0]
          have hch : (((o' + 1 : Nat) : Int) - (-1) - 1).toNat = o' + 1 := by
            push_cast
            omega
          rw [hch, positionToCursorOffset_line_zero]
        · rw [hcnt, hidx, if_neg hr]
          have hch : ((o' + 1 : Nat) : Int) - (lastIndexOfNl (cs.take o') + 1) - 1 =
              (o' : Int) - lastIndexOfNl (cs.take o') - 1 := by
            push_cast
            ring
          rw [hch]
          have hcpos : countNl (cs.take o') ≠ 0 := by
            intro h0
            exact hr (lastIndexOfNl_eq_neg_one_iff.mpr (countNl_eq_zero_iff.mp h0))
          obtain ⟨k, hk⟩ : ∃ k, countNl (cs.take o') = k + 1 :=
            ⟨countNl (cs.take o') - 1, by omega⟩
          rw [hk]
          rw [hk] at ihx
          rw [positionToCursorOffset_cons_ne hc]
          omega

/-- The first line produced by the split is the longest newline-free prefix of
the buffer. -/
theorem splitOnNl_getD_zero (s : List Char) :
    (splitOnNl s).getD 0 [] = s.takeWhile (fun c => c != '\n') := by
  induction s with
  | nil => rfl
  | cons c cs ih =>
    by_cases hc : c = '\n'
    · subst hc
      rw [List.takeWhile_cons_of_neg (by simp)]
      simp [splitOnNl_cons_nl]
    · obtain ⟨l, ls, h⟩ := splitOnNl_exists_cons cs
      rw [splitOnNl_cons_ne hc h, List.takeWhile_cons_of_pos (by simp [hc])]
      rw [h] at ih
      simp only [List.getD_cons_zero] at ih ⊢
      rw [ih]

theorem not_mem_take_of_le_takeWhile {s : List Char} :
    ∀ {n : Nat}, n ≤ (s.takeWhile (fun c => c != '\n')).length → '\n' ∉ s.take n := by
  induction s with
  | nil => intro n _; simp
  | cons c cs ih =>
    intro n hn
    by_cases hc : c = '\n'
    · subst hc
      rw [List.takeWhile_cons_of_neg (by simp)] at hn
      simp only [List.length_nil, Nat.le_zero] at hn
      subst hn
      simp
    · match n with
      | 0 => simp
      | m + 1 =>
        rw [List.takeWhile_cons_of_pos (by simp [hc])] at hn
        simp only [List.length_cons, Nat.add_le_add_iff_right] at hn
        rw [List.take_succ_cons]
        intro hmem
        rcases List.mem_cons.mp hmem with h1 | h2
        · exact hc h1.symm
        · exact ih hn h2

/-- Claim C2: for every buffer and every position whose line is a valid line
index and whose column is at most that line's length, converting the position
to an offset and back is the identity. -/
theorem position_roundtrip (code : List Char) (p : CursorPosition)
    (hline : p.line < (splitOnNl code).length)
    (hch : p.ch ≤ ((splitOnNl code).getD p.line []).length) :
    cursorOffsetToPosition code (positionToCursorOffset code p) = p := by
  induction code generalizing p with
  | nil =>
    obtain ⟨line, ch⟩ := p
    simp only [splitOnNl_nil, List.length_cons, List.length_nil] at hline
    have hl0 : line = 0 := by omega
    subst hl0
    have hch0 : ch = 0 := by
      simpa [splitOnNl_nil] using hch
    subst hch0
    rfl
  | cons c cs ih =>
    obtain ⟨line, ch⟩ := p
    match line with
    | 0 =>
      rw [positionToCursorOffset_line_zero]
      rw [splitOnNl_getD_zero] at hch
      have hnmem : '\n' ∉ (c :: cs).take ch := not_mem_take_of_le_takeWhile hch
      rw [cursorOffsetToPosition_eq]
      have hcnt : countNl ((c :: cs).take ch) = 0 := countNl_eq_zero_iff.mpr hnmem
      have hidx : lastIndexOfNl ((c :: cs).take ch) = -1 :=
        lastIndexOfNl_eq_neg_one_iff.mpr hnmem
      rw [hcnt, hidx]
      simp
    | l + 1 =>
      by_cases hc : c = '\n'
      · subst hc
        rw [positionToCursorOffset_cons_nl]
        have hline' : l < (splitOnNl cs).length := by
          rw [splitOnNl_cons_nl] at hline
          simpa using hline
        have hch' : ch ≤ ((splitOnNl cs).getD l []).length := by
          rw [splitOnNl_cons_nl] at hch
          simpa using hch
        have ihx := ih ⟨l, ch⟩ hline' hch'
        rw [cursorOffsetToPosition_eq, CursorPosition.mk.injEq] at ihx
        obtain ⟨hcnt, hchv⟩ := ihx
        rw [cursorOffsetToPosition_eq]
        set o' := positionToCursorOffset cs ⟨l, ch⟩ with ho'
        have htake : ('\n' :: cs).take (1 + o') = '\n' :: cs.take o' := by
          rw [Nat.add_comm]
          rfl
        rw [htake]
        have hcnt2 : countNl ('\n' :: cs.take o') = countNl (cs.take o') + 1 := by
          simp [countNl]
          omega
        rw [hcnt2, hcnt, lastIndexOfNl_cons_nl]
        have harg : ((1 + o' : Nat) : Int) - (lastIndexOfNl (cs.take o') + 1) - 1 =
            (o' : Int) - lastIndexOfNl (cs.take o') - 1 := by
          push_cast
          ring
        rw [harg, hchv]
      · obtain ⟨l0, ls, h⟩ := splitOnNl_exists_cons cs
        rw [positionToCursorOffset_cons_ne hc]
        have hline' : l + 1 < (splitOnNl cs).length := by
          rw [splitOnNl_cons_ne hc h] at hline
          rw [h]
          simpa using hline
        have hch' : ch ≤ ((splitOnNl cs).getD (l + 1) []).length := by
          rw [splitOnNl_cons_ne hc h] at hch
          rw [h]
          simpa using hch
        have ihx := ih ⟨l + 1, ch⟩ hline' hch'
        rw [cursorOffsetToPosition_eq, CursorPosition.mk.injEq] at ihx
        obtain ⟨hcnt, hchv⟩ := ihx
        rw [cursorOffsetToPosition_eq]
        set o' := positionToCursorOffset cs ⟨l + 1, ch⟩ with ho'
        have htake : (c :: cs).take (1 + o') = c :: cs.take o' := by
          rw [Nat.add_comm]
          rfl
        rw [htake]
        have hcnt2 : countNl (c :: cs.take o') = countNl (cs.take o') := by
          simp [countNl, hc]
        have hr : lastIndexOfNl (cs.take o') ≠ -1 := by
          intro h0
          have : countNl (cs.take o') = 0 :=
            countNl_eq_zero_iff.mpr (lastIndexOfNl_eq_neg_one_iff.mp h0)
          omega
        rw [hcnt2, hcnt, lastIndexOfNl_cons_ne hc, if_neg hr]
        have harg : ((1 + o' : Nat) : Int) - (lastIndexOfNl (cs.take o') + 1) - 1 =
            (o' : Int) - lastIndexOfNl (cs.take o') - 1 := by
          push_cast
          ring
        rw [harg, hchv]

/-- The buffer of the spec's concrete scenario 1, `"a\nbb\nccc"`. -/
def demoBuffer : List Char := ['a', '\n', 'b', 'b', '\n', 'c', 'c', 'c']

/-- Claim C7 counterexample: in buffer `"a\nbb\nccc"`, position
`{line:1, column:1}` does NOT map to offset `4` (it maps to `3`: line `"a"`
contributes `1 + 1` and the column contributes `1`), and offset `4` does NOT
map back to `{line:1, column:1}` (it maps to `{line:1, column:2}`). -/
theorem demo_scenario_not_four :
    ¬(positionToCursorOffset demoBuffer ⟨1, 1⟩ = 4 ∧
      cursorOffsetToPosition demoBuffer 4 = ⟨1, 1⟩) := by
  decide

/-- Claim C7 (amended): in buffer `"a\nbb\nccc"`, position `{line:1, column:1}`
maps to offset `3`, and offset `3` maps back to `{line:1, column:1}`. -/
theorem demo_scenario_roundtrip :
    positionToCursorOffset demoBuffer ⟨1, 1⟩ = 3 ∧
      cursorOffsetToPosition demoBuffer 3 = ⟨1, 1⟩ := by
  decide

theorem reduceIdx_all_lt {line ch : Nat} :
    ∀ (ls : List (List Char)) (acc i : Nat), i + ls.length ≤ line →
      reduceIdx (offsetStep line ch) acc i ls =
        acc + ls.foldr (fun l a => l.length + 1 + a) 0 := by
  intro ls
  induction ls with
  | nil => intro acc i _; simp [reduceIdx]
  | cons b bs ih =>
    intro acc i hi
    have hstep : offsetStep line ch acc i b = acc + b.length + 1 := by
      simp only [offsetStep]
      rw [if_pos (by simp at hi; omega)]
    simp only [reduceIdx, hstep, List.foldr]
    rw [ih (acc + b.length + 1) (i + 1) (by simp at hi ⊢; omega)]
    omega

/-- Summing `length + 1` over all lines of a buffer gives `length + 1`. -/
theorem splitOnNl_sum (s : List Char) :
    (splitOnNl s).foldr (fun l a => l.length + 1 + a) 0 = s.length + 1 := by
  induction s with
  | nil => rfl
  | cons c cs ih =>
    by_cases hc : c = '\n'
    · subst hc
      simp [splitOnNl_cons_nl, ih]
      omega
    · obtain ⟨l, ls, h⟩ := splitOnNl_exists_cons cs
      rw [splitOnNl_cons_ne hc h]
      rw [h] at ih
      simp only [List.foldr, List.length_cons] at ih ⊢
      omega

/-- Claim C9: for every buffer and every position whose line index is at least
the number of lines, `positionToCursorOffset` returns `length + 1`, whatever
the column is. -/
theorem position_line_overflow (code : List Char) (p : CursorPosition)
    (h : (splitOnNl code).length ≤ p.line) :
    positionToCursorOffset code p = code.length + 1 := by
  unfold positionToCursorOffset
  rw [reduceIdx_all_lt (splitOnNl code) 0 0 (by omega), splitOnNl_sum]
  omega

theorem lastIndexOfNl_append_singleton (s : List Char) (c : Char) :
    lastIndexOfNl (s ++ [c]) =
      if c = '\n' then (s.length : Int) else lastIndexOfNl s := by
  induction s with
  | nil => by_cases hc : c = '\n' <;> simp [lastIndexOfNl, hc]
  | cons a as ih =>
    by_cases hc : c = '\n'
    · rw [if_pos hc]
      have hne : lastIndexOfNl (as ++ [c]) ≠ -1 := by
        rw [ih, if_pos hc]
        have : (0 : Int) ≤ (as.length : Int) := by positivity
        omega
      simp only [List.cons_append, lastIndexOfNl, List.append_eq, if_neg hne]
      rw [ih, if_pos hc]
      simp only [List.length_cons]
      push_cast
      ring
    · rw [if_neg hc]
      simp only [List.cons_append, lastIndexOfNl, List.append_eq]
      rw [ih, if_neg hc]

/-- The length of the newline-free suffix of a buffer, read from the reversed
buffer, is `length - 1 - lastIndexOfNl`: the distance from the end back to the
last newline. -/
theorem trailing_run_length (s : List Char) :
    ((s.reverse.takeWhile (fun c => c != '\n')).length : Int) =
      (s.length : Int) - 1 - lastIndexOfNl s := by
  induction s using List.reverseRecOn with
  | nil => simp [lastIndexOfNl]
  | append_singleton s c ih =>
    rw [List.reverse_append, lastIndexOfNl_append_singleton]
    simp only [List.reverse_singleton, List.singleton_append]
    by_cases hc : c = '\n'
    · subst hc
      rw [if_pos rfl]
      rw [List.takeWhile_cons_of_neg (by simp)]
      simp
    · rw [if_neg hc]
      rw [List.takeWhile_cons_of_pos (by simp [hc])]
      simp only [List.length_cons, List.length_append, List.length_singleton,
        List.length_nil]
      push_cast
      omega

/-- Claim C8: for every buffer and every offset `o ≤ length`, the computed
position has line equal to the number of newlines in the prefix `b.take o` and
column equal to the distance from `o` back past the last newline of that
prefix (the length of the newline-free suffix of the prefix); in particular a
newline-free prefix yields `{line := 0, ch := o}`. -/
theorem cursorOffsetToPosition_spec (b : List Char) (o : Nat) (h : o ≤ b.length) :
    cursorOffsetToPosition b o =
      ⟨countNl (b.take o),
       ((b.take o).reverse.takeWhile (fun c => c != '\n')).length⟩ ∧
    ('\n' ∉ b.take o → cursorOffsetToPosition b o = ⟨0, o⟩) := by
  constructor
  · rw [cursorOffsetToPosition_eq]
    have hlen : (b.take o).length = o := by
      rw [List.length_take]
      omega
    have htr := trailing_run_length (b.take o)
    rw [hlen] at htr
    rw [CursorPosition.mk.injEq]
    exact ⟨rfl, by omega⟩
  · intro hn
    rw [cursorOffsetToPosition_eq, countNl_eq_zero_iff.mpr hn,
      lastIndexOfNl_eq_neg_one_iff.mpr hn]
    rw [CursorPosition.mk.injEq]
    exact ⟨rfl, by omega⟩

theorem offset_roundtrip_witness :
    (4 : Nat) ≤ demoBuffer.length ∧
      positionToCursorOffset demoBuffer (cursorOffsetToPosition demoBuffer 4) = 4 :=
  ⟨by decide, offset_roundtrip demoBuffer 4 (by decide)⟩

theorem position_roundtrip_witness :
    (1 < (splitOnNl demoBuffer).length ∧
      (1 : Nat) ≤ ((splitOnNl demoBuffer).getD 1 []).length) ∧
      cursorOffsetToPosition demoBuffer (positionToCursorOffset demoBuffer ⟨1, 1⟩) =
        ⟨1, 1⟩ :=
  ⟨⟨by decide, by decide⟩, position_roundtrip demoBuffer ⟨1, 1⟩ (by decide) (by decide)⟩

theorem position_line_overflow_witness :
    (splitOnNl ['a']).length ≤ 5 ∧
      positionToCursorOffset ['a'] ⟨5, 3⟩ = ['a'].length + 1 :=
  ⟨by decide, position_line_overflow ['a'] ⟨5, 3⟩ (by decide)⟩

theorem cursorOffsetToPosition_spec_witness :
    (4 : Nat) ≤ demoBuffer.length ∧
      (cursorOffsetToPosition demoBuffer 4 =
          ⟨countNl (demoBuffer.take 4),
           ((demoBuffer.take 4).reverse.takeWhile (fun c => c != '\n')).length⟩ ∧
        ('\n' ∉ demoBuffer.take 4 → cursorOffsetToPosition demoBuffer 4 = ⟨0, 4⟩)) :=
  ⟨by decide, cursorOffsetToPosition_spec demoBuffer 4 (by decide)⟩

/-! ### Format orchestration model -/

/-- Prose-wrap mode of the plugin settings. -/
inductive ProseWrapMode where
  | always
  | never
  | preserve
  deriving DecidableEq

/-- Embedded-language formatting value handed to the engine
(`"auto"` / `"off"` in the source). -/
inductive EmbeddedFormatting where
  | auto
  | off
  deriving DecidableEq

/-- Persisted plugin settings (`PrettierPluginSettings` in the source). -/
structure PluginSettings where
  formatOnSave : Bool
  embeddedLanguageFormatting : Bool
  proseWrap : ProseWrapMode
  printWidth : Nat
  deriving DecidableEq

/-- The host editor's live indentation configuration; `getConfig` may return
undefined for either key, modelled as `none`. -/
structure VaultConfig where
  useTabs : Option Bool
  tabSize : Option Nat
  deriving DecidableEq

/-- Options handed to the formatting engine for one invocation. -/
structure EngineOptions where
  embeddedLanguageFormatting : EmbeddedFormatting
  proseWrap : ProseWrapMode
  printWidth : Nat
  useTabs : Bool
  tabWidth : Nat
  deriving DecidableEq

/-- `getPrettierSettings` from the source: plugin settings merged with the
host editor's live `useTabs` / `tabSize` configuration read at call time; an
absent value defaults to `false` respectively `4` (the `?? false` / `?? 4` of
the source). -/
def getPrettierSettings (settings : PluginSettings) (vault : VaultConfig) :
    EngineOptions :=
  { embeddedLanguageFormatting :=
      if settings.embeddedLanguageFormatting then EmbeddedFormatting.auto
      else EmbeddedFormatting.off,
    proseWrap := settings.proseWrap,
    printWidth := settings.printWidth,
    useTabs := vault.useTabs.getD false,
    tabWidth := vault.tabSize.getD 4 }

/-- Host editor state borrowed for one operation: buffer, cursor, scroll
offsets, and the selected range as offsets into the buffer. -/
structure EditorState where
  buffer : List Char
  cursor : CursorPosition
  scrollLeft : Nat
  scrollTop : Nat
  selFrom : Nat
  selTo : Nat
  deriving DecidableEq

/-- One mutating host-editor call performed by the orchestrator. -/
inductive EditorCall where
  | setValue (text : List Char)
  | setCursor (pos : CursorPosition)
  | scrollTo (left top : Nat)
  | replaceSelection (text : List Char)
  deriving DecidableEq

/-- `editor.getSelection()`: the selected substring of the buffer. -/
def getSelection (st : EditorState) : List Char :=
  (st.buffer.take st.selTo).drop st.selFrom

/-- `editor.replaceSelection(text)`: splice the text over the selected range.
Only the buffer content is modelled; the host's own post-replacement caret and
selection bookkeeping are not part of this core. -/
def replaceSelection (st : EditorState) (text : List Char) : EditorState :=
  { st with buffer := st.buffer.take st.selFrom ++ text ++ st.buffer.drop st.selTo }

/-- `formatDocument` from the source as a state transformer: read the buffer
and cursor, convert the cursor to an offset, call the engine
(`prettierFormatWithCursor`, a parameter here) with text, offset and the
options of `getPrettierSettings`; on rejection propagate the error untouched;
on an identical result stop; otherwise capture the scroll offsets, set the new
buffer, set the cursor translated back from the returned offset, and restore
the scroll offsets.  The second component is the trace of mutating editor
calls, in order. -/
def formatDocument {ε : Type}
    (engine : List Char → Nat → EngineOptions → Except ε (List Char × Nat))
    (settings : PluginSettings) (vault : VaultConfig) (st : EditorState) :
    EditorState × List EditorCall × Except ε Unit :=
  let text := st.buffer
  let cursor := st.cursor
  let position := positionToCursorOffset text cursor
  match engine text position (getPrettierSettings settings vault) with
  | Except.error e => (st, [], Except.error e)
  | Except.ok (rawFormatted, cursorOffset) =>
    let formatted := rawFormatted
    if formatted = text then
      (st, [], Except.ok ())
    else
      let left := st.scrollLeft
      let top := st.scrollTop
      let newCursor := cursorOffsetToPosition formatted cursorOffset
      ({ st with buffer := formatted, cursor := newCursor,
                 scrollLeft := left, scrollTop := top },
       [EditorCall.setValue formatted, EditorCall.setCursor newCursor,
        EditorCall.scrollTo left top],
       Except.ok ())

/-- `formatSelection` from the source as a state transformer: read only the
selected text, call the engine (`prettierFormat`, a parameter here) with it
and the options of `getPrettierSettings`; on rejection propagate the error
untouched; on an identical result stop; otherwise replace the selection. -/
def formatSelection {ε : Type}
    (engine : List Char → EngineOptions → Except ε (List Char))
    (settings : PluginSettings) (vault : VaultConfig) (st : EditorState) :
    EditorState × List EditorCall × Except ε Unit :=
  let text := getSelection st
  match engine text (getPrettierSettings settings vault) with
  | Except.error e => (st, [], Except.error e)
  | Except.ok formatted =>
    if formatted = text then
      (st, [], Except.ok ())
    else
      (replaceSelection st formatted, [EditorCall.replaceSelection formatted],
       Except.ok ())

/-- The two format commands (`FormatKind` in the source). -/
inductive FormatKind where
  | document
  | selection
  deriving DecidableEq

/-- Run-level events around the save command: a format operation starting and
the original save callback running. -/
inductive SaveEvent where
  | formatDocumentRun
  | formatSelectionRun
  | origSave
  deriving DecidableEq

/-- The `format` dispatcher: when a markdown view is active, route to the
requested operation; otherwise silently do nothing. -/
def formatDispatch (kind : FormatKind) (activeMarkdownView : Bool) :
    List SaveEvent :=
  if activeMarkdownView then
    match kind with
    | FormatKind.document => [SaveEvent.formatDocumentRun]
    | FormatKind.selection => [SaveEvent.formatSelectionRun]
  else []

/-- The callback `hookIntoSaveCmd` installs over the original save command:
when `formatOnSave` is set and a markdown editor is focused it starts a
document format, and in every case it then calls the original save callback
once. -/
def wrappedSaveCallback (formatOnSave : Bool) (activeMarkdownView : Bool) :
    List SaveEvent :=
  (if formatOnSave then
     (if activeMarkdownView then
        formatDispatch FormatKind.document activeMarkdownView
      else [])
   else []) ++ [SaveEvent.origSave]

/-- Claim C3: when the engine returns text identical to the original buffer,
`formatDocument` leaves the editor state (buffer, cursor, scroll) unchanged
and performs no `setValue`, `setCursor` or `scrollTo` call. -/
theorem formatDocument_noop {ε : Type}
    (engine : List Char → Nat → EngineOptions → Except ε (List Char × Nat))
    (settings : PluginSettings) (vault : VaultConfig) (st : EditorState)
    (off : Nat)
    (h : engine st.buffer (positionToCursorOffset st.buffer st.cursor)
        (getPrettierSettings settings vault) = Except.ok (st.buffer, off)) :
    formatDocument engine settings vault st = (st, [], Except.ok ()) := by
  simp only [formatDocument, h]
  simp

/-- Claim C5: an engine rejection propagates unmodified out of both
`formatDocument` and `formatSelection`, and on that path the editor state is
untouched and no mutating editor call runs. -/
theorem format_error_propagates {ε : Type}
    (engineD : List Char → Nat → EngineOptions → Except ε (List Char × Nat))
    (engineS : List Char → EngineOptions → Except ε (List Char))
    (settings : PluginSettings) (vault : VaultConfig) (st : EditorState)
    (e1 e2 : ε)
    (hD : engineD st.buffer (positionToCursorOffset st.buffer st.cursor)
        (getPrettierSettings settings vault) = Except.error e1)
    (hS : engineS (getSelection st) (getPrettierSettings settings vault) =
        Except.error e2) :
    formatDocument engineD settings vault st = (st, [], Except.error e1) ∧
      formatSelection engineS settings vault st = (st, [], Except.error e2) := by
  constructor
  · simp only [formatDocument, hD]
  · simp only [formatSelection, hS]

/-- Claim C6: `formatSelection` consults the engine only on the selected text;
an identical result causes no editor mutation, and a different result replaces
exactly the selected range, with no cursor or scroll call.  The last conjunct
states that the calls and the outcome depend only on the selection text. -/
theorem formatSelection_spec {ε : Type}
    (engine : List Char → EngineOptions → Except ε (List Char))
    (settings : PluginSettings) (vault : VaultConfig) (st : EditorState)
    (f : List Char)
    (h : engine (getSelection st) (getPrettierSettings settings vault) =
        Except.ok f) :
    (f = getSelection st →
      formatSelection engine settings vault st = (st, [], Except.ok ())) ∧
    (f ≠ getSelection st →
      formatSelection engine settings vault st =
        ({ st with buffer :=
            st.buffer.take st.selFrom ++ f ++ st.buffer.drop st.selTo },
         [EditorCall.replaceSelection f], Except.ok ())) ∧
    (∀ st' : EditorState, getSelection st' = getSelection st →
      (formatSelection engine settings vault st').2 =
        (formatSelection engine settings vault st).2) := by
  refine ⟨?_, ?_, ?_⟩
  · intro hf
    simp only [formatSelection, h, if_pos hf]
  · intro hf
    simp only [formatSelection, h, if_neg hf, replaceSelection]
  · intro st' hsel
    simp only [formatSelection, hsel, h]
    by_cases hf : f = getSelection st
    · simp [if_pos hf]
    · simp [if_neg hf]

/-- Claim C4: the wrapped save callback always runs the original save exactly
once, and when format-on-save is enabled and a markdown editor is focused the
document format starts before the original save runs. -/
theorem save_hook_additive (formatOnSave activeMarkdownView : Bool) :
    (wrappedSaveCallback formatOnSave activeMarkdownView).count
        SaveEvent.origSave = 1 ∧
      (formatOnSave = true → activeMarkdownView = true →
        wrappedSaveCallback formatOnSave activeMarkdownView =
          [SaveEvent.formatDocumentRun, SaveEvent.origSave]) := by
  cases formatOnSave <;> cases activeMarkdownView <;> decide

/-- Claim C10: `getPrettierSettings` takes `useTabs` and `tabSize` from the
host configuration passed at call time; an absent `useTabs` yields `false`, an
absent `tabSize` yields tab width `4`, and present values are used as read. -/
theorem getPrettierSettings_live_defaults (settings : PluginSettings)
    (vault : VaultConfig) :
    (vault.useTabs = none →
      (getPrettierSettings settings vault).useTabs = false) ∧
    (vault.tabSize = none →
      (getPrettierSettings settings vault).tabWidth = 4) ∧
    (∀ b, vault.useTabs = some b →
      (getPrettierSettings settings vault).useTabs = b) ∧
    (∀ n, vault.tabSize = some n →
      (getPrettierSettings settings vault).tabWidth = n) := by
  refine ⟨fun h => ?_, fun h => ?_, fun b hb => ?_, fun n hn => ?_⟩ <;>
    simp [getPrettierSettings, *]

/-- A concrete editor state used by the witnesses. -/
def demoState : EditorState :=
  { buffer := ['a', 'b'], cursor := ⟨0, 1⟩, scrollLeft := 3, scrollTop := 7,
    selFrom := 0, selTo := 2 }

/-- Concrete plugin settings used by the witnesses. -/
def demoSettings : PluginSettings :=
  { formatOnSave := false, embeddedLanguageFormatting := false,
    proseWrap := ProseWrapMode.preserve, printWidth := 80 }

/-- A host configuration with both indentation keys absent. -/
def demoVault : VaultConfig := { useTabs := none, tabSize := none }

/-- An engine that returns its input unchanged. -/
def idEngine : List Char → Nat → EngineOptions → Except Unit (List Char × Nat) :=
  fun t o _ => Except.ok (t, o)

/-- An engine that always rejects, for the document path. -/
def errEngineD : List Char → Nat → EngineOptions → Except Nat (List Char × Nat) :=
  fun _ _ _ => Except.error 7

/-- An engine that always rejects, for the selection path. -/
def errEngineS : List Char → EngineOptions → Except Nat (List Char) :=
  fun _ _ => Except.error 9

/-- An engine that always returns the text `"x"`. -/
def constEngine : List Char → EngineOptions → Except Unit (List Char) :=
  fun _ _ => Except.ok ['x']

theorem formatDocument_noop_witness :
    idEngine demoState.buffer
        (positionToCursorOffset demoState.buffer demoState.cursor)
        (getPrettierSettings demoSettings demoVault) =
      Except.ok (demoState.buffer,
        positionToCursorOffset demoState.buffer demoState.cursor) ∧
    formatDocument idEngine demoSettings demoVault demoState =
      (demoState, [], Except.ok ()) :=
  ⟨rfl, formatDocument_noop idEngine demoSettings demoVault demoState _ rfl⟩

theorem format_error_propagates_witness :
    (errEngineD demoState.buffer
        (positionToCursorOffset demoState.buffer demoState.cursor)
        (getPrettierSettings demoSettings demoVault) = Except.error 7 ∧
      errEngineS (getSelection demoState)
        (getPrettierSettings demoSettings demoVault) = Except.error 9) ∧
    (formatDocument errEngineD demoSettings demoVault demoState =
        (demoState, [], Except.error 7) ∧
      formatSelection errEngineS demoSettings demoVault demoState =
        (demoState, [], Except.error 9)) :=
  ⟨⟨rfl, rfl⟩,
   format_error_propagates errEngineD errEngineS demoSettings demoVault
     demoState 7 9 rfl rfl⟩

theorem formatSelection_spec_witness :
    constEngine (getSelection demoState)
        (getPrettierSettings demoSettings demoVault) = Except.ok ['x'] ∧
    formatSelection constEngine demoSettings demoVault demoState =
      ({ demoState with buffer :=
          demoState.buffer.take demoState.selFrom ++ ['x'] ++
            demoState.buffer.drop demoState.selTo },
       [EditorCall.replaceSelection ['x']], Except.ok ()) :=
  ⟨rfl,
   (formatSelection_spec constEngine demoSettings demoVault demoState ['x']
       rfl).2.1 (by decide)⟩

theorem save_hook_additive_witness :
    (wrappedSaveCallback true true).count SaveEvent.origSave = 1 ∧
      wrappedSaveCallback true true =
        [SaveEvent.formatDocumentRun, SaveEvent.origSave] :=
  ⟨(save_hook_additive true true).1, (save_hook_additive true true).2 rfl rfl⟩

theorem getPrettierSettings_live_defaults_witness :
    (getPrettierSettings demoSettings demoVault).useTabs = false ∧
      (getPrettierSettings demoSettings demoVault).tabWidth = 4 :=
  ⟨(getPrettierSettings_live_defaults demoSettings demoVault).1 rfl,
   (getPrettierSettings_live_defaults demoSettings demoVault).2.1 rfl⟩

end PrettierFormat
